import Mathlib

/-!
# Google-Parsing-ChromeDP: a shallow embedding of `main.go`

The program drives a browser through `chromedp`: a liveness `Run`, one `Run`
with seven actions, and a report loop.  The in-page script held in `jsCode`
is embedded as a function on DOM trees.

Conventions of the embedding:

* the browser is an arbitrary deterministic machine (`Browser σ`): every
  outcome of every browser operation is covered by quantifying over it;
* what `main` does is recorded as a list of `Event`s, in program order;
* Go's `defer` / `os.Exit` behaviour is explicit: `returnFromMain` runs the
  deferred calls in LIFO order, `logFatalf` ends the process without them.
-/

namespace GoogleParsing

/-! ## Data model -/

/-- LinkResult of `main.go`: `URL` carries the json tag `href`, `Text` the
json tag `text`. -/
structure LinkResult where
  URL : String
  Text : String
  deriving DecidableEq, Repr

/-- A value returned by the page to `chromedp.Evaluate` (returned by value,
that is, as JSON). -/
inductive JSVal where
  | null : JSVal
  | bool (b : Bool) : JSVal
  | num (n : Int) : JSVal
  | str (s : String) : JSVal
  | arr (items : List JSVal) : JSVal
  | obj (fields : List (String × JSVal)) : JSVal

/-- The query options `chromedp.ByQuery` and `chromedp.ByID`. -/
inductive QueryOption where
  | ByQuery
  | ByID
  deriving DecidableEq, Repr

/-- The chromedp actions `main` builds.  `Sleep` holds its duration in
nanoseconds (`time.Duration`); `Evaluate` decodes into `&extractedLinks`. -/
inductive Action where
  | Navigate (urlstr : String)
  | WaitVisible (sel : String) (opt : QueryOption)
  | SendKeys (sel : String) (v : String) (opt : QueryOption)
  | Sleep (d : Nat)
  | Evaluate (expression : String)
  deriving DecidableEq, Repr

/-- The three cancel functions `main` defers: the one of
`context.WithTimeout` (line 23), `cancelAlloc` of `NewExecAllocator`
(line 37) and the one of `chromedp.NewContext` (line 41). -/
inductive CancelFn where
  | timeout
  | alloc
  | browserCtx
  deriving DecidableEq, Repr

/-- What `main` does, in program order. -/
inductive Event where
  | log (msg : String)
  | fatal (msg : String)
  | run (nActions : Nat)
  | did (a : Action) (err : Option String)
  | ran (err : Option String)
  | stdout (s : String)
  | cancelled (f : CancelFn)
  | exit (code : Nat)
  deriving DecidableEq, Repr

/-- The browser behind the control channel, as a deterministic machine with
state `σ`.  `attach` is what `chromedp.Run` does before its actions (context
check, browser allocation, target creation); `perform` is one action's round
trip, giving the page's value or an error. -/
structure Browser (σ : Type) where
  attach : σ → Option String × σ
  perform : Action → σ → Except String JSVal × σ

/-! ## Decoding the script's value into `[]LinkResult` -/

/-- Whether an object key names the field with json tag `tag`: the match is
case-insensitive, as in `encoding/json` (the tags here are ASCII). -/
def keyMatches (key tag : String) : Bool :=
  decide (key.toList.map Char.toLower = tag.toList)

/-- One JSON object member stored into a `LinkResult` through the json tags:
`href` sets `URL`, `text` sets `Text`, `null` leaves the field, another key is
ignored, and a non-string value for a string field is an error. -/
def setField (r : LinkResult) (kv : String × JSVal) : Except String LinkResult :=
  if keyMatches kv.1 "href" then
    match kv.2 with
    | .str s => .ok { r with URL := s }
    | .null => .ok r
    | _ => .error "json: cannot unmarshal into Go struct field LinkResult.href of type string"
  else if keyMatches kv.1 "text" then
    match kv.2 with
    | .str s => .ok { r with Text := s }
    | .null => .ok r
    | _ => .error "json: cannot unmarshal into Go struct field LinkResult.text of type string"
  else .ok r

/-- One array element decoded into a `LinkResult`. -/
def decodeLink : JSVal → Except String LinkResult
  | .null => .ok { URL := "", Text := "" }
  | .obj fields => fields.foldlM setField { URL := "", Text := "" }
  | _ => .error "json: cannot unmarshal into Go value of type main.LinkResult"

/-- The value of the script decoded into `[]LinkResult`
(`chromedp.Evaluate(jsCode, &extractedLinks)`, line 99). -/
def decode : JSVal → Except String (List LinkResult)
  | .null => .ok []
  | .arr items => items.mapM decodeLink
  | _ => .error "json: cannot unmarshal into Go value of type []main.LinkResult"

/-! ## The constants of `main` -/

def searchQuery : String := "test"

def googleURL : String := "https://www.google.com/"

def searchInputSelector : String := "textarea[name=\"q\"]"

def resultsContainerSelector : String := "#search"

/-- The key `kb.Enter`. -/
def kbEnter : String := "\r"

/-! ## The page: DOM trees and the script held in `jsCode` -/

/-- What the script reads of a DOM element: its lower-cased tag name, its
`id` (empty when it has none), and the DOM properties `href` (for an anchor,
the absolute resolved URL) and `innerText` (the rendered text). -/
structure Element where
  tag : String
  id : String
  href : String
  innerText : String
  deriving DecidableEq, Repr

/-- A DOM tree of elements. -/
inductive Node where
  | mk (el : Element) (children : List Node) : Node

def Node.el : Node → Element
  | .mk e _ => e

def Node.children : Node → List Node
  | .mk _ cs => cs

/-- An element in its document: the child indices leading to it from the
root, the element, and its ancestors, the parent first. -/
structure Located where
  path : List Nat
  el : Element
  ancestors : List Element
  deriving DecidableEq, Repr

/-- The element at a path of child indices below `n`, where `n` itself sits at
path `p` under the ancestors `anc`. -/
def Node.locate : Node → List Nat → List Nat → List Element → Option Located
  | n, [], p, anc => some ⟨p, n.el, anc⟩
  | n, i :: rest, p, anc =>
    match n.children[i]? with
    | some c => c.locate rest (p ++ [i]) (n.el :: anc)
    | none => none

/-- The element of document `d` at path `p`, if there is one. -/
def Node.elementAt (d : Node) (p : List Nat) : Option Located :=
  d.locate p [] []

/-- Document order (tree order) on paths: an element precedes its
descendants, and a child's subtree precedes the later children's. -/
def docBefore : List Nat → List Nat → Bool
  | [], [] => false
  | [], _ :: _ => true
  | _ :: _, [] => false
  | i :: p, j :: q => decide (i < j) || (decide (i = j) && docBefore p q)

mutual
/-- The elements of the subtree of a node, in a depth-first pre-order walk;
the node sits at path `p` under the ancestors `anc`. -/
def Node.elements : Node → List Nat → List Element → List Located
  | .mk e cs, p, anc => ⟨p, e, anc⟩ :: elementsOf cs p 0 (e :: anc)
/-- The walk over the children of the node at path `p`, from child `i` on. -/
def elementsOf : List Node → List Nat → Nat → List Element → List Located
  | [], _, _, _ => []
  | c :: cs, p, i, anc => c.elements (p ++ [i]) anc ++ elementsOf cs p (i + 1) anc
end

/-- The simple selectors the script uses: `#id` and a type selector. -/
inductive Simple where
  | id (s : String)
  | tag (s : String)
  deriving DecidableEq, Repr

/-- The words of a selector text, split at spaces (`w` is the word being
read, reversed). -/
def splitWords : List Char → List Char → List (List Char)
  | [], w => if w = [] then [] else [w.reverse]
  | c :: cs, w =>
    if c = ' ' then (if w = [] then splitWords cs [] else w.reverse :: splitWords cs [])
    else splitWords cs (c :: w)

def parseSimple : List Char → Simple
  | '#' :: name => .id (String.mk name)
  | name => .tag (String.mk name)

/-- A selector text of simple selectors joined by the descendant combinator
(a space), outermost first. -/
def parseSelector (s : String) : List Simple :=
  (splitWords s.toList []).map parseSimple

/-- The selector of the script: the format `%s div a h3` applied to
`resultsContainerSelector` (line 69). -/
def selector : List Simple :=
  parseSelector (resultsContainerSelector ++ " div a h3")

def Simple.test : Simple → Element → Bool
  | .id s, e => decide (e.id = s)
  | .tag s, e => decide (e.tag = s)

/-- The descendant combinator: the selectors `cs` (innermost first) are
matched, in that order, by some ancestors met going outwards. -/
def matchAncestors : List Simple → List Element → Bool
  | [], _ => true
  | _ :: _, [] => false
  | c :: cs, x :: xs => (c.test x && matchAncestors cs xs) || matchAncestors (c :: cs) xs

/-- Whether a located element matches a selector (outermost first). -/
def selectorMatches (sel : List Simple) (l : Located) : Bool :=
  match sel.reverse with
  | [] => false
  | c :: cs => c.test l.el && matchAncestors cs l.ancestors

/-- The call `document.querySelectorAll(sel)`: the matching elements of the
document in document order. -/
def querySelectorAll (document : Node) (sel : List Simple) : List Located :=
  (document.elements [] []).filter (selectorMatches sel)

/-- The call `el.closest(tag)`: the element itself or its nearest ancestor
with that tag. -/
def closest (tagName : String) (l : Located) : Option Element :=
  (l.el :: l.ancestors).find? (fun e => decide (e.tag = tagName))

/-- The record `{ href: link.href, text: h3.innerText }` (line 72). -/
def linkRecord (link : Element) (h3 : Located) : JSVal :=
  .obj [("href", .str link.href), ("text", .str h3.el.innerText)]

/-- The body of the `forEach` callback (lines 70-73) on the array `links`. -/
def callback (links : List JSVal) (h3 : Located) : List JSVal :=
  match closest "a" h3 with
  | some link => links ++ [linkRecord link h3]
  | none => links

/-- The array `links` once the `forEach` is over (lines 68-74). -/
def jsLinks (document : Node) : List JSVal :=
  (querySelectorAll document selector).foldl callback []

/-- The value of the script `jsCode` (lines 67-76) in a page: its last
expression, `links`. -/
def jsCode (document : Node) : JSVal :=
  .arr (jsLinks document)

/-- An element with no id, no href and no text of its own. -/
def plain (tag : String) : Element :=
  { tag := tag, id := "", href := "", innerText := "" }

/-- A result structure `div > a > h3`. -/
def resultEntry (href text : String) : Node :=
  .mk (plain "div")
    [ .mk { tag := "a", id := "", href := href, innerText := text }
        [ .mk { tag := "h3", id := "", href := "", innerText := text } [] ] ]

/-- A page whose body holds the search input and a `#search` container with
the given children. -/
def searchPage (results : List Node) : Node :=
  .mk (plain "html")
    [ .mk (plain "body")
        [ .mk (plain "textarea") [],
          .mk { tag := "div", id := "search", href := "", innerText := "" } results ] ]

/-- The fixture page of the end-to-end scenario: two `div > a > h3` results. -/
def fixturePage : Node :=
  searchPage
    [ resultEntry "https://example.com/1" "Result One",
      resultEntry "https://example.com/2" "Result Two" ]

/-- A page with one complete result and one heading-only result. -/
def headingOnlyPage : Node :=
  searchPage
    [ resultEntry "https://example.com/1" "Result One",
      .mk (plain "div") [ .mk { tag := "h3", id := "", href := "", innerText := "Result Two" } [] ] ]

/-- A page whose one result is an anchor directly inside the container:
`#search > a > h3`, no `div` in between. -/
def bareAnchorPage : Node :=
  searchPage
    [ .mk { tag := "a", id := "", href := "https://example.com/1", innerText := "Result One" }
        [ .mk { tag := "h3", id := "", href := "", innerText := "Result One" } [] ] ]

/-- The text of the script (lines 67-76): the format string with
`resultsContainerSelector` substituted for its one verb. -/
def jsCodeText : String :=
  "\n        var links = [];\n" ++
  "        document.querySelectorAll('" ++ resultsContainerSelector ++
    " div a h3').forEach(function(h3) \x7b\n" ++
  "            var link = h3.closest('a'); // Находим ближайший родительский <a>\n" ++
  "            if (link) \x7b\n" ++
  "                links.push(\x7b href: link.href, text: h3.innerText \x7d); " ++
    "// Извлекаем href и текст\n" ++
  "            \x7d\n" ++
  "        \x7d);\n" ++
  "        links; // Оставляем переменную 'links', чтобы Evaluate мог получить ее значение\n" ++
  "    "

/-- The seven actions of the second `chromedp.Run` (lines 83-100), in the
order they are written. -/
def plan : List Action :=
  [ .Navigate googleURL,
    .WaitVisible searchInputSelector .ByQuery,
    .SendKeys searchInputSelector searchQuery .ByQuery,
    .SendKeys searchInputSelector kbEnter .ByQuery,
    .WaitVisible resultsContainerSelector .ByID,
    .Sleep (5 * 1000000000),
    .Evaluate jsCodeText ]

/-! ## `chromedp.Run` -/

/-- The state one `chromedp.Run` threads through its actions. -/
structure RunState (σ : Type) where
  trace : List Event
  err : Option String
  extractedLinks : List LinkResult
  world : σ

/-- Modelled from the spec: an action's `Do` is chromedp library code outside
`src/` (spec 4.2: each step blocks until it completes or fails; spec 4.3: the
raw in-page value "is serialized across the process boundary and decoded",
"a field-shape mismatch is a `DecodeError`, a script execution exception is an
`EvalError`").  It is one round trip to the browser; `Evaluate` also decodes
the value into `extractedLinks`, the other actions drop it. -/
def Action.Do {σ : Type} (b : Browser σ) (a : Action) (links : List LinkResult) (w : σ) :
    Option String × List LinkResult × σ :=
  match b.perform a w with
  | (.error e, w1) => (some e, links, w1)
  | (.ok v, w1) =>
    match a with
    | .Evaluate _ =>
      match decode v with
      | .ok ls => (none, ls, w1)
      | .error e => (some e, links, w1)
    | _ => (none, links, w1)

/-- Modelled from the spec: the loop of `chromedp.Tasks.Do` is library code
outside `src/` (spec 4.2: "iterate the plan in order", "the first failing step
aborts the remaining plan").  The actions run in order, returning at the first
error. -/
def Tasks.Do {σ : Type} (b : Browser σ) : List Action → List LinkResult → σ → RunState σ
  | [], links, w => { trace := [], err := none, extractedLinks := links, world := w }
  | a :: rest, links, w =>
    match Action.Do b a links w with
    | (some e, links1, w1) =>
      { trace := [.did a (some e)], err := some e, extractedLinks := links1, world := w1 }
    | (none, links1, w1) =>
      let r := Tasks.Do b rest links1 w1
      { r with trace := .did a none :: r.trace }

/-- Modelled from the spec: `chromedp.Run` is library code outside `src/`
(spec 4.2: "iterate the plan in order", "the first failing step aborts the
remaining plan; the sequencer does not retry steps internally").  It attaches
to the browser, then runs the actions as `Tasks`. -/
def Run {σ : Type} (b : Browser σ) (actions : List Action) (links : List LinkResult) (w : σ) :
    RunState σ :=
  match b.attach w with
  | (some e, w1) =>
    { trace := [.run actions.length, .ran (some e)], err := some e,
      extractedLinks := links, world := w1 }
  | (none, w1) =>
    let r := Tasks.Do b actions links w1
    { r with trace := .run actions.length :: r.trace ++ [.ran r.err] }

/-! ## The report and `main` -/

/-- The `for i, link := range extractedLinks` loop (lines 108-110): one
`fmt.Printf` per record, `i` being the 0-based position. -/
def reportLoop : Nat → List LinkResult → List String
  | _, [] => []
  | i, link :: rest =>
    (toString (i + 1) ++ ". Заголовок: " ++ link.Text ++ "\n   URL: " ++ link.URL ++ "\n")
      :: reportLoop (i + 1) rest

/-- Lines 107-110: what is written to standard output, one string per
`fmt.Printf` call. -/
def report (extractedLinks : List LinkResult) (query : String) : List String :=
  ("\nНайдено " ++ toString extractedLinks.length ++ " ссылок для запроса '" ++ query ++ "':\n")
    :: reportLoop 0 extractedLinks

/-- `log.Fatalf`: the message, then `os.Exit(1)`; deferred calls do not run. -/
def logFatalf (msg : String) : List Event :=
  [.fatal msg, .exit 1]

/-- Returning from `main`: the deferred calls in LIFO order, then exit
status 0. -/
def returnFromMain (deferred : List CancelFn) : List Event :=
  deferred.map .cancelled ++ [.exit 0]

/-- The function `main` of `main.go`.  `deferred` is the stack of deferred
calls, the last deferred first. -/
def main {σ : Type} (b : Browser σ) (w : σ) : List Event :=
  let deferred : List CancelFn := [.timeout]
  let deferred : List CancelFn := .alloc :: deferred
  let deferred : List CancelFn := .browserCtx :: deferred
  let live := Run b [] [] w
  match live.err with
  | some e => live.trace ++ logFatalf ("Ошибка при запуске браузера: " ++ e)
  | none =>
    let t1 := live.trace ++ [.log "Браузер успешно запущен", .log ("Переход на " ++ googleURL)]
    let r := Run b plan [] live.world
    match r.err with
    | some e => t1 ++ r.trace ++ logFatalf ("Ошибка выполнения chromedp: " ++ e)
    | none =>
      t1 ++ r.trace ++ (report r.extractedLinks searchQuery).map .stdout
        ++ returnFromMain deferred

/-! ## Reading a trace -/

/-- The actions issued to the browser, each with its result. -/
def issued : List Event → List (Action × Option String)
  | [] => []
  | .did a r :: t => (a, r) :: issued t
  | _ :: t => issued t

/-- What was written to standard output. -/
def written : List Event → List String
  | [] => []
  | .stdout s :: t => s :: written t
  | _ :: t => written t

/-- How many times the cancel function `f` was invoked. -/
def cancelCount (f : CancelFn) (t : List Event) : Nat :=
  t.count (.cancelled f)


/-! ## Definitions used by the statements -/

/-- The two log lines between the liveness check and the plan. -/
def preamble : List Event :=
  [.run 0, .ran none, .log "Браузер успешно запущен", .log ("Переход на " ++ googleURL)]

/-- A browser that cannot be launched: attaching fails. -/
def launchFails : Browser Unit where
  attach := fun _ => (some "exec: \"google-chrome\": executable file not found in $PATH", ())
  perform := fun _ _ => (.ok .null, ())

/-- A browser in which the results container never becomes visible: waiting
for it fails when the deadline passes; every other operation succeeds. -/
def stallsAtResults : Browser Unit where
  attach := fun _ => (none, ())
  perform := fun a _ =>
    match a with
    | .WaitVisible _ .ByID => (.error "context deadline exceeded", ())
    | _ => (.ok .null, ())

/-- The record the callback pushes for a heading, if any. -/
def recordOf (h3 : Located) : Option JSVal :=
  (closest "a" h3).map (fun link => linkRecord link h3)

/-- The `LinkResult` a heading's record decodes to. -/
def linkOf (link : Element) (h3 : Located) : LinkResult :=
  { URL := link.href, Text := h3.el.innerText }

/-- The heading of `bareAnchorPage`, with its ancestors. -/
def bareHeading : Located :=
  { path := [0, 1, 0, 0],
    el := { tag := "h3", id := "", href := "", innerText := "Result One" },
    ancestors :=
      [ { tag := "a", id := "", href := "https://example.com/1", innerText := "Result One" },
        { tag := "div", id := "search", href := "", innerText := "" },
        plain "body", plain "html" ] }

/-- The heading of the heading-only result of `headingOnlyPage`. -/
def loneHeading : Located :=
  { path := [0, 1, 1, 0],
    el := { tag := "h3", id := "", href := "", innerText := "Result Two" },
    ancestors :=
      [ plain "div", { tag := "div", id := "search", href := "", innerText := "" },
        plain "body", plain "html" ] }

/-- The first heading of `fixturePage`. -/
def firstHeading : Located :=
  { path := [0, 1, 0, 0, 0],
    el := { tag := "h3", id := "", href := "", innerText := "Result One" },
    ancestors :=
      [ { tag := "a", id := "", href := "https://example.com/1", innerText := "Result One" },
        plain "div", { tag := "div", id := "search", href := "", innerText := "" },
        plain "body", plain "html" ] }

/-- A browser in which every operation succeeds and whose page, when the
script is evaluated, is `d`. -/
def servesPage (d : Node) : Browser Unit where
  attach := fun _ => (none, ())
  perform := fun a _ =>
    match a with
    | .Evaluate _ => (.ok (jsCode d), ())
    | _ => (.ok .null, ())

/-! ## Lemmas on traces -/

theorem issued_nil : issued [] = [] := rfl

theorem issued_cons_did (a : Action) (r : Option String) (t : List Event) :
    issued (.did a r :: t) = (a, r) :: issued t := rfl

theorem issued_cons_log (m : String) (t : List Event) : issued (.log m :: t) = issued t := rfl

theorem issued_cons_fatal (m : String) (t : List Event) : issued (.fatal m :: t) = issued t := rfl

theorem issued_cons_run (n : Nat) (t : List Event) : issued (.run n :: t) = issued t := rfl

theorem issued_cons_ran (r : Option String) (t : List Event) :
    issued (.ran r :: t) = issued t := rfl

theorem issued_cons_stdout (m : String) (t : List Event) :
    issued (.stdout m :: t) = issued t := rfl

theorem issued_cons_cancelled (f : CancelFn) (t : List Event) :
    issued (.cancelled f :: t) = issued t := rfl

theorem issued_cons_exit (n : Nat) (t : List Event) : issued (.exit n :: t) = issued t := rfl

theorem written_nil : written [] = [] := rfl

theorem written_cons_stdout (m : String) (t : List Event) :
    written (.stdout m :: t) = m :: written t := rfl

theorem written_cons_did (a : Action) (r : Option String) (t : List Event) :
    written (.did a r :: t) = written t := rfl

theorem written_cons_log (m : String) (t : List Event) : written (.log m :: t) = written t := rfl

theorem written_cons_fatal (m : String) (t : List Event) :
    written (.fatal m :: t) = written t := rfl

theorem written_cons_run (n : Nat) (t : List Event) : written (.run n :: t) = written t := rfl

theorem written_cons_ran (r : Option String) (t : List Event) :
    written (.ran r :: t) = written t := rfl

theorem written_cons_cancelled (f : CancelFn) (t : List Event) :
    written (.cancelled f :: t) = written t := rfl

theorem written_cons_exit (n : Nat) (t : List Event) : written (.exit n :: t) = written t := rfl

theorem issued_append (s t : List Event) : issued (s ++ t) = issued s ++ issued t := by
  induction s with
  | nil => rfl
  | cons e s ih => cases e <;> simp [issued, ih]

theorem written_append (s t : List Event) : written (s ++ t) = written s ++ written t := by
  induction s with
  | nil => rfl
  | cons e s ih => cases e <;> simp [written, ih]

theorem issued_did (l : List Action) :
    issued (l.map (fun a => Event.did a none)) = l.map (fun a => (a, none)) := by
  induction l with
  | nil => rfl
  | cons a l ih => simp [issued, ih]

theorem written_did (l : List Action) :
    written (l.map (fun a => Event.did a none)) = [] := by
  induction l with
  | nil => rfl
  | cons a l ih => simp [written, ih]

theorem issued_stdout (l : List String) : issued (l.map Event.stdout) = [] := by
  induction l with
  | nil => rfl
  | cons a l ih => simp [issued, ih]

theorem written_stdout (l : List String) : written (l.map Event.stdout) = l := by
  induction l with
  | nil => rfl
  | cons a l ih => simp [written, ih]

theorem map_fst_succeeded (l : List Action) :
    (l.map (fun a => (a, (none : Option String)))).map Prod.fst = l := by
  induction l with
  | nil => rfl
  | cons a l ih => simp [ih]

/-! ## `Tasks.Do` and `Run` -/

/-- The loop of `Tasks.Do` either runs every action with success, or stops at
the first failing action `a`, having run the actions before it with success. -/
theorem Tasks_Do_cases {σ : Type} (b : Browser σ) (acts : List Action)
    (links : List LinkResult) (w : σ) :
    ((Tasks.Do b acts links w).err = none ∧
      (Tasks.Do b acts links w).trace = acts.map (fun a => Event.did a none)) ∨
    (∃ pre a post e, acts = pre ++ a :: post ∧ (Tasks.Do b acts links w).err = some e ∧
      (Tasks.Do b acts links w).trace
        = pre.map (fun a => Event.did a none) ++ [Event.did a (some e)]) := by
  induction acts generalizing links w with
  | nil => left; simp [Tasks.Do]
  | cons a rest ih =>
    rcases h : Action.Do b a links w with ⟨err, links1, w1⟩
    cases err with
    | some e =>
      right
      refine ⟨[], a, rest, e, rfl, ?_, ?_⟩ <;> simp [Tasks.Do, h]
    | none =>
      rcases ih links1 w1 with ⟨h1, h2⟩ | ⟨pre, x, post, e, h1, h2, h3⟩
      · left
        simp [Tasks.Do, h, h1, h2]
      · right
        refine ⟨a :: pre, x, post, e, by simp [h1], ?_, ?_⟩ <;> simp [Tasks.Do, h, h2, h3]

/-- The shapes of a trace of `chromedp.Run`. -/
theorem Run_cases {σ : Type} (b : Browser σ) (acts : List Action)
    (links : List LinkResult) (w : σ) :
    (∃ e, (Run b acts links w).err = some e ∧
      (Run b acts links w).trace = [Event.run acts.length, Event.ran (some e)]) ∨
    ((Run b acts links w).err = none ∧
      (Run b acts links w).trace
        = Event.run acts.length :: acts.map (fun a => Event.did a none) ++ [Event.ran none]) ∨
    (∃ pre a post e, acts = pre ++ a :: post ∧ (Run b acts links w).err = some e ∧
      (Run b acts links w).trace
        = Event.run acts.length :: pre.map (fun a => Event.did a none)
            ++ [Event.did a (some e), Event.ran (some e)]) := by
  rcases h : b.attach w with ⟨err, w1⟩
  cases err with
  | some e => left; exact ⟨e, by simp [Run, h], by simp [Run, h]⟩
  | none =>
    right
    rcases Tasks_Do_cases b acts links w1 with ⟨h1, h2⟩ | ⟨pre, x, post, e, h1, h2, h3⟩
    · left
      simp [Run, h, h1, h2]
    · right
      exact ⟨pre, x, post, e, h1, by simp [Run, h, h2], by simp [Run, h, h2, h3]⟩

/-- The four shapes of a run of `main`: the liveness check fails; the second
`Run` fails before its first action; a plan step fails; everything succeeds. -/
theorem main_cases {σ : Type} (b : Browser σ) (w : σ) :
    (∃ e, (Run b [] [] w).err = some e ∧
      main b w = [.run 0, .ran (some e), .fatal ("Ошибка при запуске браузера: " ++ e), .exit 1]) ∨
    (∃ e, (Run b [] [] w).err = none ∧
      main b w = preamble ++ [.run 7, .ran (some e),
        .fatal ("Ошибка выполнения chromedp: " ++ e), .exit 1]) ∨
    (∃ pre a post e, (Run b [] [] w).err = none ∧ plan = pre ++ a :: post ∧
      main b w = preamble ++ .run 7 :: pre.map (fun a => Event.did a none) ++
        [.did a (some e), .ran (some e), .fatal ("Ошибка выполнения chromedp: " ++ e), .exit 1]) ∨
    ((Run b [] [] w).err = none ∧ (Run b plan [] (Run b [] [] w).world).err = none ∧
      main b w = preamble ++ .run 7 :: plan.map (fun a => Event.did a none) ++ [.ran none] ++
        (report (Run b plan [] (Run b [] [] w).world).extractedLinks searchQuery).map .stdout ++
        [.cancelled .browserCtx, .cancelled .alloc, .cancelled .timeout, .exit 0]) := by
  have hlen : plan.length = 7 := by decide
  rcases Run_cases b [] [] w with ⟨e, h1, h2⟩ | ⟨h1, h2⟩ | ⟨pre, x, post, e, h1, _, _⟩
  · left
    exact ⟨e, h1, by simp [main, h1, h2, logFatalf]⟩
  · right
    rcases Run_cases b plan [] (Run b [] [] w).world with
      ⟨e, k1, k2⟩ | ⟨k1, k2⟩ | ⟨pre, x, post, e, k0, k1, k2⟩
    · left
      exact ⟨e, h1, by simp [main, h1, h2, k1, k2, hlen, logFatalf, preamble]⟩
    · right; right
      exact ⟨h1, k1, by simp [main, h1, h2, k1, k2, hlen, returnFromMain, preamble]⟩
    · right; left
      exact ⟨pre, x, post, e, h1, k0, by simp [main, h1, h2, k1, k2, hlen, logFatalf, preamble]⟩
  · simp at h1


/-- The actions `main` issues: none, or the plan up to a failing step, or the
whole plan with success. -/
theorem issued_main_cases {σ : Type} (b : Browser σ) (w : σ) :
    (issued (main b w) = [] ∧ written (main b w) = [] ∧
      ∃ t e msg, main b w = t ++ [.ran (some e), .fatal msg, .exit 1]) ∨
    (∃ pre a post e, plan = pre ++ a :: post ∧ written (main b w) = [] ∧
      issued (main b w) = pre.map (fun a => (a, none)) ++ [(a, some e)] ∧
      ∃ t, main b w = t ++ [.did a (some e), .ran (some e),
        .fatal ("Ошибка выполнения chromedp: " ++ e), .exit 1]) ∨
    (issued (main b w) = plan.map (fun a => (a, none)) ∧
      written (main b w)
        = report (Run b plan [] (Run b [] [] w).world).extractedLinks searchQuery ∧
      (∀ e, Event.ran (some e) ∉ main b w) ∧
      ∃ t, main b w = t ++
        [.cancelled .browserCtx, .cancelled .alloc, .cancelled .timeout, .exit 0]) := by
  rcases main_cases b w with ⟨e, _, h⟩ | ⟨e, _, h⟩ | ⟨pre, a, post, e, _, hp, h⟩ | ⟨_, _, h⟩
  · left
    exact ⟨by simp [h, issued], by simp [h, written], [.run 0], e,
      "Ошибка при запуске браузера: " ++ e, by simp [h]⟩
  · left
    exact ⟨by simp [h, issued, preamble], by simp [h, written, preamble],
      preamble ++ [.run 7], e, "Ошибка выполнения chromedp: " ++ e, by simp [h]⟩
  · right; left
    refine ⟨pre, a, post, e, hp, ?_, ?_, preamble ++ .run 7 :: pre.map (fun a => Event.did a none),
      by simp [h]⟩
    · rw [h]
      simp only [written_append, written_did, preamble, written_cons_run, written_cons_ran,
        written_cons_log, written_cons_did, written_cons_fatal, written_cons_exit, written_nil,
        List.nil_append, List.append_nil]
    · rw [h]
      simp only [issued_append, issued_did, preamble, issued_cons_run, issued_cons_ran,
        issued_cons_log, issued_cons_did, issued_cons_fatal, issued_cons_exit, issued_nil,
        List.nil_append, List.append_nil]
  · right; right
    refine ⟨?_, ?_, ?_, _, h⟩
    · rw [h]
      simp only [issued_append, issued_did, issued_stdout, preamble, issued_cons_run,
        issued_cons_ran, issued_cons_log, issued_cons_cancelled, issued_cons_exit, issued_nil,
        List.nil_append, List.append_nil]
    · rw [h]
      simp only [written_append, written_did, written_stdout, preamble, written_cons_run,
        written_cons_ran, written_cons_log, written_cons_cancelled, written_cons_exit,
        written_nil, List.nil_append, List.append_nil, report]
    · intro e he
      simp [h, preamble] at he

/-- Every report entry: the loop started at counter `k` writes, for the record
at position `i`, the index `k + i + 1` with that record's `Text` and `URL`. -/
theorem reportLoop_getElem (k : Nat) (links : List LinkResult) (i : Nat) (h : i < links.length) :
    (reportLoop k links)[i]? = some (toString (k + i + 1) ++ ". Заголовок: " ++ links[i].Text
      ++ "\n   URL: " ++ links[i].URL ++ "\n") := by
  induction links generalizing k i with
  | nil => simp at h
  | cons l rest ih =>
    cases i with
    | zero => simp [reportLoop]
    | succ i =>
      have h1 : i < rest.length := by simpa using h
      simp only [reportLoop, List.getElem?_cons_succ, List.getElem_cons_succ]
      rw [ih (k + 1) i h1]
      have : k + 1 + i + 1 = k + (i + 1) + 1 := by omega
      rw [this]

theorem reportLoop_length (k : Nat) (links : List LinkResult) :
    (reportLoop k links).length = links.length := by
  induction links generalizing k with
  | nil => rfl
  | cons l rest ih => simp [reportLoop, ih]

/-! ## The pipeline claims -/

/-- C1 (the code departs from the claim): when the liveness check fails,
`main` ends through `log.Fatalf`, that is `os.Exit(1)`, and none of the three
deferred cancel functions is invoked; the same when a plan step fails; in
general each of them is invoked once when `main` returns (exit status 0) and
not at all when it ends through `log.Fatalf`. -/
theorem teardown_skipped_after_fatal :
    main launchFails () =
      [.run 0, .ran (some "exec: \"google-chrome\": executable file not found in $PATH"),
       .fatal ("Ошибка при запуске браузера: "
          ++ "exec: \"google-chrome\": executable file not found in $PATH"),
       .exit 1] ∧
    (∀ f, cancelCount f (main launchFails ()) = 0) ∧
    (∀ f, cancelCount f (main stallsAtResults ()) = 0) ∧
    (∀ (σ : Type) (b : Browser σ) (w : σ) (f : CancelFn),
      cancelCount f (main b w) = if (main b w).getLast? = some (.exit 0) then 1 else 0) := by
  refine ⟨by rfl, fun f => by cases f <;> rfl, fun f => by cases f <;> rfl, ?_⟩
  intro σ b w f
  rcases main_cases b w with ⟨e, _, h⟩ | ⟨e, _, h⟩ | ⟨pre, a, post, e, _, hp, h⟩ | ⟨_, _, h⟩
  · simp [h, cancelCount]
  · simp [h, cancelCount, preamble]
  · have hl : main b w = (preamble ++ .run 7 :: pre.map (fun a => Event.did a none) ++
        [.did a (some e), .ran (some e), .fatal ("Ошибка выполнения chromedp: " ++ e)])
        ++ [.exit 1] := by simp [h]
    have hc : cancelCount f (main b w) = 0 := by
      rw [h]
      simp [cancelCount, preamble, List.count_eq_zero]
    rw [hc, hl, List.getLast?_concat]
    simp
  · have hl : main b w = (preamble ++ .run 7 :: plan.map (fun a => Event.did a none) ++
        [.ran none] ++
        (report (Run b plan [] (Run b [] [] w).world).extractedLinks searchQuery).map .stdout ++
        [.cancelled .browserCtx, .cancelled .alloc, .cancelled .timeout]) ++ [.exit 0] := by
      simp [h]
    have hc : cancelCount f (main b w) = 1 := by
      rw [h]
      have h1 : List.count (Event.cancelled f) (plan.map (fun a => Event.did a none)) = 0 := by
        simp [List.count_eq_zero]
      have h2 : List.count (Event.cancelled f)
          ((report (Run b plan [] (Run b [] [] w).world).extractedLinks searchQuery).map
            Event.stdout) = 0 := by
        simp [List.count_eq_zero]
      cases f <;> simp [cancelCount, preamble, List.count_append, List.count_cons, h1, h2]
    rw [hc, hl, List.getLast?_concat]
    simp

/-- C2: the plan is navigate, wait for the search input (by query), send the
query, send Enter, wait for the results container (by id), sleep 5 s,
evaluate the script; the actions `main` issues form a prefix of it, none of
them is issued twice, every issued action but the last succeeded, and a
failing action is the last one issued: right after it `Run` returns its error
and `main` ends with that error. -/
theorem plan_steps_in_order {σ : Type} (b : Browser σ) (w : σ) :
    plan =
      [ .Navigate "https://www.google.com/",
        .WaitVisible "textarea[name=\"q\"]" .ByQuery,
        .SendKeys "textarea[name=\"q\"]" "test" .ByQuery,
        .SendKeys "textarea[name=\"q\"]" "\r" .ByQuery,
        .WaitVisible "#search" .ByID,
        .Sleep 5000000000,
        .Evaluate jsCodeText ] ∧
    (issued (main b w)).map Prod.fst <+: plan ∧
    ((issued (main b w)).map Prod.fst).Nodup ∧
    (∀ x ∈ (issued (main b w)).dropLast, x.2 = none) ∧
    (∀ a e, (a, some e) ∈ issued (main b w) →
      (issued (main b w)).getLast? = some (a, some e) ∧
      ∃ t, main b w = t ++ [.did a (some e), .ran (some e),
        .fatal ("Ошибка выполнения chromedp: " ++ e), .exit 1]) := by
  have hnd : plan.Nodup := by
    simp [plan, searchQuery, kbEnter, searchInputSelector, resultsContainerSelector]
  refine ⟨rfl, ?_⟩
  rcases issued_main_cases b w with ⟨h, _, _⟩ | ⟨pre, a, post, e, hp, _, h, ht⟩ | ⟨h, _, _, _⟩
  · simp [h]
  · have hpre : (issued (main b w)).map Prod.fst <+: plan := by
      rw [h, hp, List.map_append, map_fst_succeeded]
      exact ⟨post, by simp⟩
    refine ⟨hpre, hnd.sublist hpre.sublist, ?_, ?_⟩
    · intro x hx
      rw [h, List.dropLast_concat] at hx
      simp only [List.mem_map] at hx
      obtain ⟨y, _, rfl⟩ := hx
      rfl
    · intro a1 e1 hmem
      rw [h] at hmem
      simp only [List.mem_append, List.mem_map, Prod.mk.injEq, List.mem_singleton] at hmem
      rcases hmem with ⟨y, _, _, hy⟩ | ⟨rfl, hy⟩
      · cases hy
      · cases hy
        exact ⟨by simp [h], ht⟩
  · refine ⟨by rw [h, map_fst_succeeded], by rw [h, map_fst_succeeded]; exact hnd, ?_, ?_⟩
    · intro x hx
      have hx1 := List.mem_of_mem_dropLast hx
      rw [h] at hx1
      simp only [List.mem_map] at hx1
      obtain ⟨y, _, rfl⟩ := hx1
      rfl
    · intro a1 e1 hmem
      rw [h] at hmem
      simp at hmem

/-- C2 at a browser whose results container never becomes visible: the
failing wait is the fifth and last action issued, and `main` ends with its
error. -/
theorem plan_steps_in_order_witness :
    (issued (main stallsAtResults ())).getLast?
      = some (.WaitVisible "#search" .ByID, some "context deadline exceeded") ∧
    ∃ t, main stallsAtResults () = t ++
      [.did (.WaitVisible "#search" .ByID) (some "context deadline exceeded"),
       .ran (some "context deadline exceeded"),
       .fatal ("Ошибка выполнения chromedp: " ++ "context deadline exceeded"), .exit 1] :=
  (plan_steps_in_order stallsAtResults ()).2.2.2.2 (.WaitVisible "#search" .ByID)
    "context deadline exceeded" (by decide)

/-- When both `Run`s of `main` return without error, what `main` writes to
standard output is the report of the decoded records for the query. -/
theorem written_main_of_success {σ : Type} (b : Browser σ) (w : σ)
    (h1 : (Run b [] [] w).err = none)
    (h2 : (Run b plan [] (Run b [] [] w).world).err = none) :
    written (main b w)
      = report (Run b plan [] (Run b [] [] w).world).extractedLinks searchQuery := by
  rcases main_cases b w with ⟨e, k, _⟩ | ⟨e, _, h⟩ | ⟨pre, a, post, e, _, _, h⟩ | ⟨_, _, h⟩
  · rw [h1] at k
    cases k
  · exfalso
    rcases Run_cases b plan [] (Run b [] [] w).world with
      ⟨e1, k1, _⟩ | ⟨_, k2⟩ | ⟨_, _, _, e1, _, k1, _⟩
    · rw [h2] at k1
      cases k1
    · have hm : Event.ran (some e) ∈ main b w := by simp [h]
      simp [main, h1, h2, k2, returnFromMain] at hm
      rcases Run_cases b [] [] w with ⟨e1, k1, _⟩ | ⟨_, k3⟩ | ⟨_, _, _, _, k0, _, _⟩
      · rw [h1] at k1
        cases k1
      · simp [k3] at hm
      · simp at k0
    · rw [h2] at k1
      cases k1
  · exfalso
    rcases Run_cases b plan [] (Run b [] [] w).world with
      ⟨e1, k1, _⟩ | ⟨_, k2⟩ | ⟨_, _, _, e1, _, k1, _⟩
    · rw [h2] at k1
      cases k1
    · have hm : Event.ran (some e) ∈ main b w := by simp [h]
      simp [main, h1, h2, k2, returnFromMain] at hm
      rcases Run_cases b [] [] w with ⟨e1, k1, _⟩ | ⟨_, k3⟩ | ⟨_, _, _, _, k0, _, _⟩
      · rw [h1] at k1
        cases k1
      · simp [k3] at hm
      · simp at k0
    · rw [h2] at k1
      cases k1
  · rw [h]
    simp only [written_append, written_did, written_stdout, preamble, written_cons_run,
      written_cons_ran, written_cons_log, written_cons_cancelled, written_cons_exit,
      written_nil, List.nil_append, List.append_nil, report]

/-- C7: the report is one header with the number of records and the query,
then one entry per record in the list's order, the entry of the record at
position `i` showing `i + 1`, its `Text` and its `URL`; for the empty list it
is the header with count 0 alone; and `main` writes this report of the decoded
records for the query to standard output whenever both its `Run`s return
without error, and writes nothing else otherwise. -/
theorem report_header_and_entries (links : List LinkResult) (query : String) :
    (report links query).length = links.length + 1 ∧
    (report links query)[0]? =
      some ("\nНайдено " ++ toString links.length ++ " ссылок для запроса '" ++ query ++ "':\n") ∧
    (∀ i (h : i < links.length),
      (report links query)[i + 1]? =
        some (toString (i + 1) ++ ". Заголовок: " ++ links[i].Text
          ++ "\n   URL: " ++ links[i].URL ++ "\n")) ∧
    report [] query = ["\nНайдено " ++ "0" ++ " ссылок для запроса '" ++ query ++ "':\n"] ∧
    (∀ (σ : Type) (b : Browser σ) (w : σ),
      (Run b [] [] w).err = none →
      (Run b plan [] (Run b [] [] w).world).err = none →
      written (main b w)
        = report (Run b plan [] (Run b [] [] w).world).extractedLinks searchQuery) ∧
    (∀ (σ : Type) (b : Browser σ) (w : σ),
      written (main b w) = [] ∨
      written (main b w)
        = report (Run b plan [] (Run b [] [] w).world).extractedLinks searchQuery) := by
  refine ⟨by simp [report, reportLoop_length], by simp [report], ?_, by rfl, ?_, ?_⟩
  · intro i h
    have := reportLoop_getElem 0 links i h
    simpa [report] using this
  · intro σ b w h1 h2
    exact written_main_of_success b w h1 h2
  · intro σ b w
    rcases issued_main_cases b w with ⟨_, h, _⟩ | ⟨_, _, _, _, _, h, _⟩ | ⟨_, h, _⟩
    · exact Or.inl h
    · exact Or.inl h
    · exact Or.inr h

/-- C7 at two browsers in which every operation succeeds: serving the page
with one complete and one heading-only result, `main` writes the header with
count 1 and the one entry; serving a page with an empty results container, it
writes the header with count 0 alone. -/
theorem report_header_and_entries_witness :
    written (main (servesPage headingOnlyPage) ())
      = [ "\nНайдено 1 ссылок для запроса 'test':\n",
          "1. Заголовок: Result One\n   URL: https://example.com/1\n" ] ∧
    written (main (servesPage (searchPage [])) ())
      = [ "\nНайдено 0 ссылок для запроса 'test':\n" ] :=
  ⟨((report_header_and_entries [] "test").2.2.2.2.1 Unit (servesPage headingOnlyPage) ()
      rfl rfl).trans rfl,
   ((report_header_and_entries [] "test").2.2.2.2.1 Unit (servesPage (searchPage [])) ()
      rfl rfl).trans rfl⟩

/-- C8: when a `Run` of `main` returns an error (a failing step, a script
error and a decoding error are all errors of the step `Evaluate`, hence of the
second `Run`), `main` writes nothing to standard output and ends through
`log.Fatalf`; and when anything is written, every step of the plan was issued
with success and no `Run` returned an error. -/
theorem no_report_after_failure {σ : Type} (b : Browser σ) (w : σ) :
    ((∃ e, Event.ran (some e) ∈ main b w) →
      written (main b w) = [] ∧ ∃ t msg, main b w = t ++ [.fatal msg, .exit 1]) ∧
    (∀ a e, (a, some e) ∈ issued (main b w) → Event.ran (some e) ∈ main b w) ∧
    (∀ (s : String) (links : List LinkResult) (w0 w1 : σ) (e : String),
      b.perform (.Evaluate s) w0 = (.error e, w1) →
      Action.Do b (.Evaluate s) links w0 = (some e, links, w1)) ∧
    (∀ (s : String) (links : List LinkResult) (w0 w1 : σ) (v : JSVal) (e : String),
      b.perform (.Evaluate s) w0 = (.ok v, w1) → decode v = .error e →
      Action.Do b (.Evaluate s) links w0 = (some e, links, w1)) ∧
    (written (main b w) ≠ [] →
      issued (main b w) = plan.map (fun a => (a, none)) ∧
      (∀ e, Event.ran (some e) ∉ main b w) ∧
      written (main b w)
        = report (Run b plan [] (Run b [] [] w).world).extractedLinks searchQuery) := by
  refine ⟨?_, ?_, ?_, ?_, ?_⟩
  · rintro ⟨e, he⟩
    rcases issued_main_cases b w with ⟨_, h, t, e1, msg, ht⟩ | ⟨_, a, _, e1, _, h, _, t, ht⟩ |
      ⟨_, _, h, _⟩
    · exact ⟨h, t ++ [.ran (some e1)], msg, by simp [ht]⟩
    · exact ⟨h, t ++ [.did a (some e1), .ran (some e1)],
        "Ошибка выполнения chromedp: " ++ e1, by simp [ht]⟩
    · exact absurd he (h e)
  · intro a e hmem
    rcases issued_main_cases b w with ⟨h, _, _⟩ | ⟨pre, a1, post, e1, _, _, h, t, ht⟩ | ⟨h, _, _, _⟩
    · simp [h] at hmem
    · rw [h] at hmem
      simp only [List.mem_append, List.mem_map, Prod.mk.injEq, List.mem_singleton] at hmem
      rcases hmem with ⟨y, _, _, hy⟩ | ⟨rfl, hy⟩
      · cases hy
      · cases hy
        simp [ht]
    · rw [h] at hmem
      simp at hmem
  · intro s links w0 w1 e h
    simp [Action.Do, h]
  · intro s links w0 w1 v e h hd
    simp [Action.Do, h, hd]
  · intro hne
    rcases issued_main_cases b w with ⟨_, h, _⟩ | ⟨_, _, _, _, _, h, _⟩ | ⟨h1, h2, h3, _⟩
    · exact absurd h hne
    · exact absurd h hne
    · exact ⟨h1, h3, h2⟩

/-- C8 at a browser whose results container never becomes visible: nothing
is written and `main` ends through `log.Fatalf`. -/
theorem no_report_after_failure_witness :
    written (main stallsAtResults ()) = [] ∧
    ∃ t msg, main stallsAtResults () = t ++ [.fatal msg, .exit 1] :=
  (no_report_after_failure stallsAtResults ()).1 ⟨"context deadline exceeded", by decide⟩

/-- C9: when the liveness check (the `Run` without actions) fails, `main`
ends with the launch error, having issued no action and written nothing; and
an action event occurs in a trace of `main` only after the liveness check
returned without error. -/
theorem no_step_before_liveness {σ : Type} (b : Browser σ) (w : σ) :
    (∀ e, (Run b [] [] w).err = some e →
      main b w = [.run 0, .ran (some e), .fatal ("Ошибка при запуске браузера: " ++ e), .exit 1] ∧
      issued (main b w) = [] ∧ written (main b w) = []) ∧
    (∀ i a r, (main b w)[i]? = some (.did a r) →
      (Run b [] [] w).err = none ∧ 2 ≤ i ∧
      (main b w)[0]? = some (.run 0) ∧ (main b w)[1]? = some (.ran none)) := by
  constructor
  · intro e he
    rcases main_cases b w with ⟨e1, h1, h⟩ | ⟨_, h1, _⟩ | ⟨_, _, _, _, h1, _⟩ | ⟨h1, _⟩
    · rw [he] at h1
      cases h1
      exact ⟨h, by simp [h, issued], by simp [h, written]⟩
    all_goals (rw [he] at h1; cases h1)
  · intro i a r hi
    rcases main_cases b w with ⟨e1, h1, h⟩ | ⟨_, h1, h⟩ | ⟨_, _, _, _, h1, _, h⟩ | ⟨h1, _, h⟩
    · exfalso
      have hm := List.getElem?_mem hi
      simp [h] at hm
    all_goals
      refine ⟨h1, ?_, by simp [h, preamble], by simp [h, preamble]⟩
      rcases i with _ | _ | i
      · simp [h, preamble] at hi
      · simp [h, preamble] at hi
      · omega


/-- C9 at a browser that cannot be launched. -/
theorem no_step_before_liveness_witness :
    main launchFails () =
      [.run 0, .ran (some "exec: \"google-chrome\": executable file not found in $PATH"),
       .fatal ("Ошибка при запуске браузера: "
          ++ "exec: \"google-chrome\": executable file not found in $PATH"),
       .exit 1] ∧
    issued (main launchFails ()) = [] ∧ written (main launchFails ()) = [] :=
  (no_step_before_liveness launchFails ()).1
    "exec: \"google-chrome\": executable file not found in $PATH" rfl

/-! ## The walk over the document -/

theorem docBefore_append_cons (p : List Nat) (k : Nat) (q : List Nat) :
    docBefore p (p ++ k :: q) = true := by
  induction p with
  | nil => rfl
  | cons i p ih => simp [docBefore, ih]

theorem docBefore_sibling (p : List Nat) (i j : Nat) (q r : List Nat) (h : i < j) :
    docBefore (p ++ i :: q) (p ++ j :: r) = true := by
  induction p with
  | nil => simp [docBefore, h]
  | cons k p ih => simp [docBefore, ih]

mutual
/-- Every element the walk lists is the element of the tree at its path, and
that path extends the path of the subtree's root. -/
theorem Node.elements_sound : ∀ (n : Node) (p : List Nat) (anc : List Element) (l : Located),
    l ∈ n.elements p anc → ∃ q, l.path = p ++ q ∧ n.locate q p anc = some l
  | .mk e cs, p, anc, l, h => by
    rw [Node.elements, List.mem_cons] at h
    rcases h with rfl | h
    · exact ⟨[], by simp, rfl⟩
    · obtain ⟨k, c, q, hk, hp, hl⟩ := elementsOf_sound cs p 0 (e :: anc) l h
      rw [Nat.zero_add] at hp hl
      exact ⟨k :: q, hp, by simp [Node.locate, Node.children, Node.el, hk, hl]⟩
theorem elementsOf_sound : ∀ (cs : List Node) (p : List Nat) (i : Nat) (anc : List Element)
    (l : Located), l ∈ elementsOf cs p i anc →
    ∃ k c q, cs[k]? = some c ∧ l.path = p ++ (i + k) :: q ∧
      c.locate q (p ++ [i + k]) anc = some l
  | [], _, _, _, l, h => by simp [elementsOf] at h
  | c :: cs, p, i, anc, l, h => by
    rw [elementsOf, List.mem_append] at h
    rcases h with h | h
    · obtain ⟨q, hp, hl⟩ := Node.elements_sound c (p ++ [i]) anc l h
      exact ⟨0, c, q, by simp, by simpa using hp, by simpa using hl⟩
    · obtain ⟨k, c1, q, hk, hp, hl⟩ := elementsOf_sound cs p (i + 1) anc l h
      have e1 : i + 1 + k = i + (k + 1) := by omega
      rw [e1] at hp hl
      exact ⟨k + 1, c1, q, by simpa using hk, hp, hl⟩
end

mutual
/-- The walk lists the elements in document order. -/
theorem Node.elements_sorted : ∀ (n : Node) (p : List Nat) (anc : List Element),
    (n.elements p anc).Pairwise (fun x y => docBefore x.path y.path = true)
  | .mk e cs, p, anc => by
    rw [Node.elements, List.pairwise_cons]
    refine ⟨?_, elementsOf_sorted cs p 0 (e :: anc)⟩
    intro y hy
    obtain ⟨k, c, q, _, hp, _⟩ := elementsOf_sound cs p 0 (e :: anc) y hy
    rw [hp]
    exact docBefore_append_cons p _ q
theorem elementsOf_sorted : ∀ (cs : List Node) (p : List Nat) (i : Nat) (anc : List Element),
    (elementsOf cs p i anc).Pairwise (fun x y => docBefore x.path y.path = true)
  | [], _, _, _ => by simp [elementsOf]
  | c :: cs, p, i, anc => by
    rw [elementsOf, List.pairwise_append]
    refine ⟨Node.elements_sorted c (p ++ [i]) anc, elementsOf_sorted cs p (i + 1) anc, ?_⟩
    intro x hx y hy
    obtain ⟨q, hp, _⟩ := Node.elements_sound c (p ++ [i]) anc x hx
    obtain ⟨k, c1, r, _, hp1, _⟩ := elementsOf_sound cs p (i + 1) anc y hy
    rw [hp, hp1, List.append_assoc]
    exact docBefore_sibling p i (i + 1 + k) _ r (by omega)
end

theorem elementsOf_mem (cs : List Node) (p : List Nat) (i k : Nat) (anc : List Element)
    (c : Node) (l : Located) (hk : cs[k]? = some c) (h : l ∈ c.elements (p ++ [i + k]) anc) :
    l ∈ elementsOf cs p i anc := by
  induction cs generalizing i k with
  | nil => simp at hk
  | cons c0 cs ih =>
    rw [elementsOf, List.mem_append]
    cases k with
    | zero =>
      simp only [List.getElem?_cons_zero, Option.some.injEq] at hk
      subst hk
      exact Or.inl h
    | succ k =>
      right
      have hk1 : cs[k]? = some c := by simpa using hk
      have e1 : i + (k + 1) = i + 1 + k := by omega
      rw [e1] at h
      exact ih (i + 1) k hk1 h

/-- The walk lists every element of the tree. -/
theorem Node.locate_mem (q : List Nat) : ∀ (n : Node) (p : List Nat) (anc : List Element)
    (l : Located), n.locate q p anc = some l → l ∈ n.elements p anc := by
  induction q with
  | nil =>
    intro n p anc l h
    cases n with
    | mk e cs =>
      simp only [Node.locate, Node.el, Option.some.injEq] at h
      subst h
      simp [Node.elements]
  | cons i rest ih =>
    intro n p anc l h
    cases n with
    | mk e cs =>
      simp only [Node.locate, Node.children, Node.el] at h
      cases hc : cs[i]? with
      | none => simp [hc] at h
      | some c =>
        simp only [hc] at h
        have h1 := ih c (p ++ [i]) (e :: anc) l h
        rw [Node.elements, List.mem_cons]
        right
        exact elementsOf_mem cs p 0 i (e :: anc) c l hc (by simpa using h1)

/-- The element found at a path carries that path. -/
theorem Node.locate_path (q : List Nat) : ∀ (n : Node) (r : List Nat) (anc : List Element)
    (l : Located), n.locate q r anc = some l → l.path = r ++ q := by
  induction q with
  | nil =>
    intro n r anc l hl
    simp only [Node.locate, Option.some.injEq] at hl
    subst hl
    simp
  | cons i q ih =>
    intro n r anc l hl
    simp only [Node.locate] at hl
    cases hc : n.children[i]? with
    | none => simp [hc] at hl
    | some c =>
      simp only [hc] at hl
      simpa using ih c _ _ l hl

/-- The elements `querySelectorAll` returns are the elements of the document
that match the selector. -/
theorem mem_querySelectorAll (d : Node) (sel : List Simple) (l : Located) :
    l ∈ querySelectorAll d sel ↔ d.elementAt l.path = some l ∧ selectorMatches sel l = true := by
  unfold querySelectorAll Node.elementAt
  rw [List.mem_filter]
  constructor
  · rintro ⟨h, hm⟩
    obtain ⟨q, hp, hl⟩ := Node.elements_sound d [] [] l h
    rw [List.nil_append] at hp
    rw [hp]
    exact ⟨hl, hm⟩
  · rintro ⟨h, hm⟩
    exact ⟨Node.locate_mem _ d [] [] l h, hm⟩

/-- The elements `querySelectorAll` returns are in document order. -/
theorem querySelectorAll_sorted (d : Node) (sel : List Simple) :
    (querySelectorAll d sel).Pairwise (fun x y => docBefore x.path y.path = true) :=
  (Node.elements_sorted d [] []).sublist (List.filter_sublist _)


/-! ## The selector, `closest` and the `forEach` -/

theorem selector_eq : selector = [.id "search", .tag "div", .tag "a", .tag "h3"] := by
  decide

/-- The descendant combinator picks an ancestor matching the innermost
selector and matches the remaining selectors further out. -/
theorem matchAncestors_cons_iff (c : Simple) (cs : List Simple) (xs : List Element) :
    matchAncestors (c :: cs) xs = true ↔
      ∃ pre x post, xs = pre ++ x :: post ∧ c.test x = true ∧ matchAncestors cs post = true := by
  induction xs with
  | nil => simp [matchAncestors]
  | cons y ys ih =>
    simp only [matchAncestors, Bool.or_eq_true, Bool.and_eq_true]
    constructor
    · rintro (⟨h1, h2⟩ | h)
      · exact ⟨[], y, ys, rfl, h1, h2⟩
      · obtain ⟨pre, x, post, hx, h1, h2⟩ := ih.mp h
        exact ⟨y :: pre, x, post, by simp [hx], h1, h2⟩
    · rintro ⟨pre, x, post, hx, h1, h2⟩
      cases pre with
      | nil =>
        simp only [List.nil_append, List.cons.injEq] at hx
        obtain ⟨rfl, rfl⟩ := hx
        exact Or.inl ⟨h1, h2⟩
      | cons z pre =>
        simp only [List.cons_append, List.cons.injEq] at hx
        obtain ⟨rfl, rfl⟩ := hx
        exact Or.inr (ih.mpr ⟨pre, x, post, rfl, h1, h2⟩)

/-- What `#search div a h3` asks of an element: it is an `h3`, one of its
ancestors is an `a`, an ancestor of that one is a `div`, and an ancestor of
that one has the id `search`. -/
theorem selectorMatches_iff (l : Located) :
    selectorMatches selector l = true ↔
      l.el.tag = "h3" ∧
      ∃ pre a mid dv mid2 s post,
        l.ancestors = pre ++ a :: (mid ++ dv :: (mid2 ++ s :: post)) ∧
        a.tag = "a" ∧ dv.tag = "div" ∧ s.id = "search" := by
  rw [selector_eq]
  simp only [selectorMatches, List.reverse_cons, List.reverse_nil, List.nil_append,
    List.cons_append, Bool.and_eq_true, Simple.test, decide_eq_true_eq]
  constructor
  · rintro ⟨h3, hm⟩
    obtain ⟨pre, a, post1, e1, ha, hm1⟩ := (matchAncestors_cons_iff _ _ _).mp hm
    obtain ⟨mid, dv, post2, e2, hd, hm2⟩ := (matchAncestors_cons_iff _ _ _).mp hm1
    obtain ⟨mid2, s, post, e3, hs, _⟩ := (matchAncestors_cons_iff _ _ _).mp hm2
    simp only [Simple.test, decide_eq_true_eq] at ha hd hs
    exact ⟨h3, pre, a, mid, dv, mid2, s, post, by rw [e1, e2, e3], ha, hd, hs⟩
  · rintro ⟨h3, pre, a, mid, dv, mid2, s, post, e, ha, hd, hs⟩
    refine ⟨h3, (matchAncestors_cons_iff _ _ _).mpr ⟨pre, a, _, e, by simp [Simple.test, ha], ?_⟩⟩
    refine (matchAncestors_cons_iff _ _ _).mpr ⟨mid, dv, _, rfl, by simp [Simple.test, hd], ?_⟩
    exact (matchAncestors_cons_iff _ _ _).mpr
      ⟨mid2, s, post, rfl, by simp [Simple.test, hs], by simp [matchAncestors]⟩

/-- In a chain of ancestors holding an element with tag `t`, the search of
`closest` stops at the nearest such element; whatever lies beyond the given
one lies beyond the nearest one too. -/
theorem nearest_with_tag (t : String) (pre : List Element) (a : Element) (post : List Element)
    (ha : a.tag = t) :
    ∃ pre1 link post1, pre ++ a :: post = pre1 ++ link :: post1 ∧
      (∀ x ∈ pre1, x.tag ≠ t) ∧ link.tag = t ∧
      (pre ++ a :: post).find? (fun e => decide (e.tag = t)) = some link ∧
      post <:+ post1 := by
  induction pre with
  | nil =>
    exact ⟨[], a, post, rfl, by simp, ha, by simp [ha], List.suffix_refl _⟩
  | cons x pre ih =>
    by_cases hx : x.tag = t
    · refine ⟨[], x, pre ++ a :: post, rfl, by simp, hx, by simp [hx], ?_⟩
      exact ⟨pre ++ [a], by simp⟩
    · obtain ⟨pre1, link, post1, e, hpre, hl, hf, hsuf⟩ := ih
      refine ⟨x :: pre1, link, post1, by simp [e], ?_, hl, ?_, hsuf⟩
      · intro y hy
        rcases List.mem_cons.mp hy with rfl | hy
        · exact hx
        · exact hpre y hy
      · simpa [List.find?, hx] using hf

/-- For an element matched by the selector, `closest('a')` is its nearest
anchor ancestor, and that anchor has an ancestor with the id `search`. -/
theorem closest_of_matches (l : Located) (h : selectorMatches selector l = true) :
    ∃ pre link post, l.ancestors = pre ++ link :: post ∧ (∀ x ∈ pre, x.tag ≠ "a") ∧
      link.tag = "a" ∧ (∃ s ∈ post, s.id = "search") ∧ closest "a" l = some link := by
  obtain ⟨h3, pre, a, mid, dv, mid2, s, post, e, ha, _, hs⟩ := (selectorMatches_iff l).mp h
  obtain ⟨pre1, link, post1, e1, hpre, hl, hf, hsuf⟩ :=
    nearest_with_tag "a" pre a (mid ++ dv :: (mid2 ++ s :: post)) ha
  refine ⟨pre1, link, post1, by rw [e, e1], hpre, hl, ⟨s, ?_, hs⟩, ?_⟩
  · exact hsuf.subset (by simp)
  · have hne : ¬ l.el.tag = "a" := by rw [h3]; decide
    simp only [closest, List.find?, hne, decide_False]
    rw [e]
    exact hf

/-- An element without an anchor among its ancestors, and not an anchor
itself, has no `closest('a')`. -/
theorem closest_none (l : Located) (hl : l.el.tag ≠ "a") (h : ∀ a ∈ l.ancestors, a.tag ≠ "a") :
    closest "a" l = none := by
  simp only [closest, List.find?, hl, decide_False]
  rw [List.find?_eq_none]
  intro x hx
  simpa using h x hx

/-- The `forEach` appends, in order, the records of the headings that have a
`closest('a')`. -/
theorem foldl_callback (hs : List Located) (acc : List JSVal) :
    hs.foldl callback acc = acc ++ hs.filterMap recordOf := by
  induction hs generalizing acc with
  | nil => simp
  | cons h hs ih =>
    rw [List.foldl_cons, ih]
    cases hc : closest "a" h with
    | none => simp [callback, recordOf, hc]
    | some link => simp [callback, recordOf, hc]

theorem jsLinks_eq (d : Node) :
    jsLinks d = (querySelectorAll d selector).filterMap recordOf := by
  simp [jsLinks, foldl_callback]

/-- The headings in `hs` all having a `closest('a')`, the records are theirs,
one each, in the same order. -/
theorem records_aligned (hs : List Located)
    (h : ∀ x ∈ hs, ∃ link, closest "a" x = some link) :
    List.Forall₂ (fun x r => ∃ link, closest "a" x = some link ∧ r = linkRecord link x)
      hs (hs.filterMap recordOf) := by
  induction hs with
  | nil => simp
  | cons x hs ih =>
    obtain ⟨link, hl⟩ := h x (by simp)
    have hr : recordOf x = some (linkRecord link x) := by simp [recordOf, hl]
    rw [List.filterMap_cons_some hr]
    exact List.Forall₂.cons ⟨link, hl, rfl⟩ (ih (fun y hy => h y (by simp [hy])))

theorem decodeLink_linkRecord (link : Element) (h3 : Located) :
    decodeLink (linkRecord link h3) = .ok (linkOf link h3) := by
  rfl

/-- Decoding the records of headings gives their `LinkResult`s, one each, in
the same order. -/
theorem decode_records (hs : List Located) (rs : List JSVal)
    (h : List.Forall₂ (fun x r => ∃ link, closest "a" x = some link ∧ r = linkRecord link x)
      hs rs) :
    ∃ ls, rs.mapM decodeLink = .ok ls ∧
      List.Forall₂ (fun x (r : LinkResult) => ∃ link, closest "a" x = some link ∧
        r = linkOf link x) hs ls := by
  induction h with
  | nil => exact ⟨[], rfl, List.Forall₂.nil⟩
  | cons hxr _ ih =>
    obtain ⟨link, hl, rfl⟩ := hxr
    obtain ⟨ls, hls, hf⟩ := ih
    refine ⟨linkOf link _ :: ls, ?_, List.Forall₂.cons ⟨link, hl, rfl⟩ hf⟩
    rw [List.mapM_cons, decodeLink_linkRecord, hls]
    rfl

theorem docBefore_irrefl (p : List Nat) : docBefore p p = false := by
  induction p with
  | nil => rfl
  | cons i p ih => simp [docBefore, ih]

theorem docBefore_asymm (p q : List Nat) (h : docBefore p q = true) : docBefore q p = false := by
  induction p generalizing q with
  | nil => cases q <;> simp_all [docBefore]
  | cons i p ih =>
    cases q with
    | nil => simp [docBefore] at h
    | cons j q =>
      simp only [docBefore, Bool.or_eq_true, Bool.and_eq_true, decide_eq_true_eq] at h
      rcases h with h | ⟨rfl, h⟩
      · have h1 : ¬ j < i := by omega
        have h2 : ¬ j = i := by omega
        simp [docBefore, h1, h2]
      · simp [docBefore, ih q h]


/-! ## The extraction claims -/

/-- C3 (the code departs from the claim): in the page `#search > a > h3` the
heading lies within the results container (an ancestor has the id `search`)
and has an enclosing anchor (`closest('a')` finds it), an anchor inside the
container that holds an `h3`, as the comment of lines 62-64 describes; yet the
selector of line 69 matches nothing and the script returns no record. -/
theorem bare_anchor_heading_not_extracted :
    bareAnchorPage.elementAt [0, 1, 0, 0] = some bareHeading ∧
    bareHeading.el.tag = "h3" ∧
    (∃ s ∈ bareHeading.ancestors, s.id = "search") ∧
    closest "a" bareHeading =
      some { tag := "a", id := "", href := "https://example.com/1", innerText := "Result One" } ∧
    querySelectorAll bareAnchorPage selector = [] ∧
    jsLinks bareAnchorPage = [] := by
  refine ⟨by decide, by decide, ?_, by decide, by decide, by rfl⟩
  exact ⟨{ tag := "div", id := "search", href := "", innerText := "" }, by decide, rfl⟩

/-- What the selector of line 69 does extract: a heading `h3` of the document
one of whose anchor ancestors lies inside a `div` that lies inside the results
container `#search` produces a record; its `href` is that of the heading's
nearest enclosing anchor and its `text` the heading's `innerText`. -/
theorem heading_under_div_anchor_extracted (d : Node) (p : List Nat) (h : Located)
    (hat : d.elementAt p = some h) (htag : h.el.tag = "h3")
    (hchain : ∃ pre a mid dv mid2 s post,
      h.ancestors = pre ++ a :: (mid ++ dv :: (mid2 ++ s :: post)) ∧
      a.tag = "a" ∧ dv.tag = "div" ∧ s.id = "search") :
    ∃ pre link post, h.ancestors = pre ++ link :: post ∧ (∀ x ∈ pre, x.tag ≠ "a") ∧
      link.tag = "a" ∧ closest "a" h = some link ∧
      JSVal.obj [("href", .str link.href), ("text", .str h.el.innerText)] ∈ jsLinks d := by
  have hm : selectorMatches selector h = true := (selectorMatches_iff h).mpr ⟨htag, hchain⟩
  obtain ⟨pre, link, post, e, hpre, hl, _, hc⟩ := closest_of_matches h hm
  refine ⟨pre, link, post, e, hpre, hl, hc, ?_⟩
  have hp : h.path = p := by simpa using Node.locate_path p d [] [] h hat
  have hmem : h ∈ querySelectorAll d selector :=
    (mem_querySelectorAll d selector h).mpr ⟨by rw [hp]; exact hat, hm⟩
  rw [jsLinks_eq, List.mem_filterMap]
  exact ⟨h, hmem, by simp [recordOf, hc, linkRecord]⟩

/-- The first heading of the fixture page produces its record. -/
theorem heading_under_div_anchor_extracted_witness :
    ∃ pre link post, firstHeading.ancestors = pre ++ link :: post ∧
      (∀ x ∈ pre, x.tag ≠ "a") ∧ link.tag = "a" ∧ closest "a" firstHeading = some link ∧
      JSVal.obj [("href", .str link.href), ("text", .str firstHeading.el.innerText)]
        ∈ jsLinks fixturePage :=
  heading_under_div_anchor_extracted fixturePage [0, 1, 0, 0, 0] firstHeading (by decide)
    (by decide)
    ⟨[], { tag := "a", id := "", href := "https://example.com/1", innerText := "Result One" },
      [], plain "div", [], { tag := "div", id := "search", href := "", innerText := "" },
      [plain "body", plain "html"], rfl, rfl, rfl, rfl⟩

/-- C4: a heading `h3` of the document with no anchor among its ancestors is
not matched by the selector, the callback would push nothing for it, the
array `links` is what the script builds from the other matched headings, and
the value decodes without error; and for the page with one complete result
and one heading-only result the script returns exactly one record, that of
the complete result. -/
theorem anchorless_heading_skipped :
    (∀ (d : Node) (p : List Nat) (h : Located), d.elementAt p = some h → h.el.tag = "h3" →
      (∀ a ∈ h.ancestors, a.tag ≠ "a") →
      h ∉ querySelectorAll d selector ∧ (∀ links, callback links h = links) ∧
      jsLinks d
        = ((querySelectorAll d selector).filter (fun x => decide (x ≠ h))).foldl callback [] ∧
      ∃ ls, decode (jsCode d) = .ok ls) ∧
    headingOnlyPage.elementAt [0, 1, 1, 0] = some loneHeading ∧
    (∀ a ∈ loneHeading.ancestors, a.tag ≠ "a") ∧
    jsLinks headingOnlyPage
      = [.obj [("href", .str "https://example.com/1"), ("text", .str "Result One")]] ∧
    (jsLinks headingOnlyPage).length = 1 ∧
    decode (jsCode headingOnlyPage)
      = .ok [{ Text := "Result One", URL := "https://example.com/1" }] := by
  refine ⟨?_, by decide, by decide, by rfl, by rfl, by rfl⟩
  intro d p h _ htag hanc
  have hne : h.el.tag ≠ "a" := by rw [htag]; decide
  have hnone := closest_none h hne hanc
  have hnot : h ∉ querySelectorAll d selector := by
    intro hmem
    obtain ⟨_, link, _, _, _, _, _, hc⟩ :=
      closest_of_matches h ((mem_querySelectorAll d selector h).mp hmem).2
    rw [hnone] at hc
    cases hc
  refine ⟨hnot, fun links => by simp [callback, hnone], ?_, ?_⟩
  · have hf : (querySelectorAll d selector).filter (fun x => decide (x ≠ h))
        = querySelectorAll d selector := by
      rw [List.filter_eq_self]
      intro x hx
      have : x ≠ h := fun e => hnot (e ▸ hx)
      simpa using this
    rw [hf]
    rfl
  · have hall : ∀ x ∈ querySelectorAll d selector, ∃ link, closest "a" x = some link := by
      intro x hx
      obtain ⟨_, link, _, _, _, _, _, hc⟩ :=
        closest_of_matches x ((mem_querySelectorAll d selector x).mp hx).2
      exact ⟨link, hc⟩
    obtain ⟨ls, hls, _⟩ := decode_records _ _ (records_aligned _ hall)
    exact ⟨ls, by rw [jsCode, jsLinks_eq]; exact hls⟩

/-- C5: the records of `links` are those of the matched headings, one each in
the same order; a matched heading that precedes another in document order
comes first in that order; decoding gives the `LinkResult`s of the same
headings in the same order; and the report loop writes its entries in the
order of the decoded list. -/
theorem records_in_document_order (d : Node) :
    List.Forall₂ (fun x r => ∃ link, closest "a" x = some link ∧ r = linkRecord link x)
      (querySelectorAll d selector) (jsLinks d) ∧
    (∀ x ∈ querySelectorAll d selector, d.elementAt x.path = some x) ∧
    (∀ i j (hi : i < (querySelectorAll d selector).length)
      (hj : j < (querySelectorAll d selector).length),
      docBefore ((querySelectorAll d selector)[i]).path ((querySelectorAll d selector)[j]).path
        = true → i < j) ∧
    (∃ ls, decode (jsCode d) = .ok ls ∧
      List.Forall₂ (fun x (r : LinkResult) => ∃ link, closest "a" x = some link ∧
        r = { URL := link.href, Text := x.el.innerText }) (querySelectorAll d selector) ls ∧
      ∀ (query : String) (i : Nat) (hi : i < ls.length),
        (report ls query)[i + 1]? = some (toString (i + 1) ++ ". Заголовок: " ++ ls[i].Text
          ++ "\n   URL: " ++ ls[i].URL ++ "\n")) := by
  have hall : ∀ x ∈ querySelectorAll d selector, ∃ link, closest "a" x = some link := by
    intro x hx
    obtain ⟨_, link, _, _, _, _, _, hc⟩ :=
      closest_of_matches x ((mem_querySelectorAll d selector x).mp hx).2
    exact ⟨link, hc⟩
  have hrec := records_aligned _ hall
  rw [← jsLinks_eq] at hrec
  refine ⟨hrec, fun x hx => ((mem_querySelectorAll d selector x).mp hx).1, ?_, ?_⟩
  · intro i j hi hj hb
    have hs := querySelectorAll_sorted d selector
    rw [List.pairwise_iff_getElem] at hs
    rcases Nat.lt_trichotomy i j with h | h | h
    · exact h
    · subst h
      rw [docBefore_irrefl] at hb
      cases hb
    · have := docBefore_asymm _ _ (hs j i hj hi h)
      rw [this] at hb
      cases hb
  · obtain ⟨ls, hls, hf⟩ := decode_records _ _ hrec
    refine ⟨ls, hls, hf, ?_⟩
    intro query i hi
    have := reportLoop_getElem 0 ls i hi
    simpa [report] using this

/-- C6: on the fixture page the selector matches the two headings, in
document order, the script's value is the array of the two records, it decodes to the two `LinkResult`s in document order, and a run of
`main` against a browser serving that page reports exactly these two. -/
theorem fixture_page_extraction :
    (querySelectorAll fixturePage selector).map (fun h => (h.path, h.el.innerText))
      = [([0, 1, 0, 0, 0], "Result One"), ([0, 1, 1, 0, 0], "Result Two")] ∧
    jsLinks fixturePage
      = [ .obj [("href", .str "https://example.com/1"), ("text", .str "Result One")],
          .obj [("href", .str "https://example.com/2"), ("text", .str "Result Two")] ] ∧
    decode (jsCode fixturePage)
      = .ok [ { Text := "Result One", URL := "https://example.com/1" },
              { Text := "Result Two", URL := "https://example.com/2" } ] ∧
    written (main (servesPage fixturePage) ())
      = [ "\nНайдено 2 ссылок для запроса 'test':\n",
          "1. Заголовок: Result One\n   URL: https://example.com/1\n",
          "2. Заголовок: Result Two\n   URL: https://example.com/2\n" ] := by
  refine ⟨by decide, by rfl, by rfl, by rfl⟩

/-- C10: every element matched by `#search div a h3` has an anchor ancestor,
the nearest of which is what `closest('a')` returns and has an ancestor with
the id `search`; so the guard `if (link)` skips no matched element: `links`
has as many records as there are matched elements, the record of each coming
from its `closest('a')`. -/
theorem matched_heading_has_anchor (d : Node) :
    (∀ h ∈ querySelectorAll d selector,
      ∃ pre link post, h.ancestors = pre ++ link :: post ∧ (∀ x ∈ pre, x.tag ≠ "a") ∧
        link.tag = "a" ∧ (∃ s ∈ post, s.id = "search") ∧ closest "a" h = some link) ∧
    (jsLinks d).length = (querySelectorAll d selector).length ∧
    List.Forall₂ (fun h r => ∃ link, closest "a" h = some link ∧
        r = JSVal.obj [("href", .str link.href), ("text", .str h.el.innerText)])
      (querySelectorAll d selector) (jsLinks d) := by
  have hall : ∀ x ∈ querySelectorAll d selector, ∃ link, closest "a" x = some link := by
    intro x hx
    obtain ⟨_, link, _, _, _, _, _, hc⟩ :=
      closest_of_matches x ((mem_querySelectorAll d selector x).mp hx).2
    exact ⟨link, hc⟩
  have hrec := records_aligned _ hall
  rw [← jsLinks_eq] at hrec
  exact ⟨fun h hh => closest_of_matches h ((mem_querySelectorAll d selector h).mp hh).2,
    hrec.length_eq.symm, hrec⟩

end GoogleParsing
